import Mathlib

/-!
Verification of the registry + liveness-detection core of the
`hymetalab_desktop` launcher backend (`src/src-tauri/src/lib.rs`).

Strings from the Rust source are embedded as `List Char`; Rust `&str`
operations (`trim`, `to_ascii_lowercase`, `contains`, `lines`,
`eq_ignore_ascii_case`) are embedded as executable functions on `List Char`.
File-system effects (reading the registry file, writing it, checking that a
path is an existing directory, canonicalization) are embedded by explicit
state passing: each effectful operation takes the relevant part of the disk
state as an argument and returns the updated state.
-/

namespace Launcher

/-- Rust `char::to_ascii_lowercase`: maps `A`–`Z` to `a`–`z`, leaves every
other character unchanged. -/
def toLowerAscii (c : Char) : Char :=
  if 'A' ≤ c ∧ c ≤ 'Z' then Char.ofNat (c.toNat + 32) else c

/-- Rust `str::to_ascii_lowercase` on a string embedded as a character list. -/
def lowerStr (s : List Char) : List Char := s.map toLowerAscii

/-- Rust `char::is_whitespace` (the Unicode `White_Space` property), used by
`str::trim`. -/
def isRustWhitespace (c : Char) : Bool :=
  (9 ≤ c.toNat && c.toNat ≤ 13) || c.toNat = 32 || c.toNat = 0x85 || c.toNat = 0xA0 ||
  c.toNat = 0x1680 || (0x2000 ≤ c.toNat && c.toNat ≤ 0x200A) ||
  c.toNat = 0x2028 || c.toNat = 0x2029 || c.toNat = 0x202F || c.toNat = 0x205F ||
  c.toNat = 0x3000

/-- Rust `str::trim`: drops leading and trailing whitespace. -/
def trimStr (s : List Char) : List Char :=
  ((s.dropWhile isRustWhitespace).reverse.dropWhile isRustWhitespace).reverse

/-- Rust `str::contains` for a literal substring needle:
`strContains hay needle` holds when `needle` occurs contiguously in `hay`. -/
def strContains (hay needle : List Char) : Bool :=
  needle.isPrefixOf hay ||
    match hay with
    | [] => false
    | _ :: t => strContains t needle

/-- Strip one trailing carriage return, as Rust's line splitting does for a
line terminated by `\r\n`. -/
def stripCR (l : List Char) : List Char :=
  match l.getLast? with
  | some c => if c = '\r' then l.dropLast else l
  | none => l

/-- Split a character stream at each `'\n'`; every segment that was terminated
by a `'\n'` has one trailing `'\r'` stripped, and the final unterminated
segment is kept verbatim. -/
def rustLinesAux : List Char → List Char → List (List Char)
  | acc, [] => [acc.reverse]
  | acc, '\n' :: rest => stripCR acc.reverse :: rustLinesAux [] rest
  | acc, c :: rest => rustLinesAux (c :: acc) rest

/-- Rust `str::lines` (also the semantics of `BufRead::lines` on the same
bytes): lines are separated by `\n` or `\r\n`, terminators are not included,
and a final trailing newline does not produce an extra empty line. -/
def rustLines (s : List Char) : List (List Char) :=
  if s = [] then []
  else
    let segs := rustLinesAux [] s
    if s.getLast? = some '\n' then segs.dropLast else segs

/-- `is_launchable_app_process_line` (lib.rs 133–145): trim and ASCII-lowercase
the `ps` command line; an empty line never matches; the line must contain the
lowercased segment `/{bundle_name}.app/contents/macos/`; a line containing
`/backend-sidecar` is rejected. -/
def is_launchable_app_process_line (command_line bundle_name : List Char) : Bool :=
  let normalized_line := lowerStr (trimStr command_line)
  if normalized_line.isEmpty then false
  else
    let bundle_segment := ['/'] ++ bundle_name ++ (".app/contents/macos/").toList
    if !(strContains normalized_line (lowerStr bundle_segment)) then false
    else !(strContains normalized_line (("/backend-sidecar").toList))

/-- `is_app_running_in_commands` (lib.rs 147–151): some line of the `ps`
snapshot is a launchable process line for the bundle. -/
def is_app_running_in_commands (bundle_name commands : List Char) : Bool :=
  (rustLines commands).any fun line => is_launchable_app_process_line line bundle_name

theorem strContains_iff_infix (hay needle : List Char) :
    strContains hay needle = true ↔ needle <:+: hay := by
  induction hay with
  | nil =>
    simp [strContains, List.isPrefixOf_iff_prefix]
  | cons c t ih =>
    rw [strContains]
    simp only [Bool.or_eq_true, List.isPrefixOf_iff_prefix, ih, List.infix_cons_iff]

theorem lowerStr_append (a b : List Char) :
    lowerStr (a ++ b) = lowerStr a ++ lowerStr b := by
  simp [lowerStr]

theorem is_launchable_iff (line b : List Char) :
    is_launchable_app_process_line line b = true ↔
      (lowerStr (trimStr line) ≠ [] ∧
        (['/'] ++ lowerStr b ++ (".app/contents/macos/").toList) <:+: lowerStr (trimStr line) ∧
        ¬ ("/backend-sidecar").toList <:+: lowerStr (trimStr line)) := by
  have htok : lowerStr (['/'] ++ b ++ (".app/contents/macos/").toList)
      = ['/'] ++ lowerStr b ++ (".app/contents/macos/").toList := by
    rw [lowerStr_append, lowerStr_append]
    have h1 : lowerStr ['/'] = ['/'] := by decide
    have h2 : lowerStr ((".app/contents/macos/").toList) = (".app/contents/macos/").toList := by
      decide
    rw [h1, h2]
  simp only [is_launchable_app_process_line, htok]
  by_cases hemp : lowerStr (trimStr line) = [] <;>
    by_cases hseg : strContains (lowerStr (trimStr line))
      (['/'] ++ lowerStr b ++ (".app/contents/macos/").toList) = true <;>
    simp [hemp, hseg, List.isEmpty_iff, strContains_iff_infix] at * <;>
    simp_all [← strContains_iff_infix]

/-- C1: `is_app_running_in_commands bundleName snapshot` is true iff some line
of the snapshot, after trimming and ASCII-lowercasing, is non-empty, contains
the substring `/{bundleName}.app/contents/macos/` (bundle name lowercased),
and does not contain the substring `/backend-sidecar` anywhere. -/
theorem C1_is_app_running_in_commands_iff (bundle_name snapshot : List Char) :
    is_app_running_in_commands bundle_name snapshot = true ↔
      ∃ line ∈ rustLines snapshot,
        lowerStr (trimStr line) ≠ [] ∧
        (['/'] ++ lowerStr bundle_name ++ (".app/contents/macos/").toList) <:+:
          lowerStr (trimStr line) ∧
        ¬ ("/backend-sidecar").toList <:+: lowerStr (trimStr line) := by
  simp only [is_app_running_in_commands, List.any_eq_true, is_launchable_iff]

/-! ### Filesystem path identity (Rust `std::path` on Unix) -/

/-- Split a character list at each `'/'`. -/
def splitSlashAux : List Char → List Char → List (List Char)
  | acc, [] => [acc.reverse]
  | acc, c :: rest =>
    if c = '/' then acc.reverse :: splitSlashAux [] rest
    else splitSlashAux (c :: acc) rest

/-- The normal components of a Unix path: empty segments (from `//` or
leading/trailing `/`) and `.` segments are dropped, as in Rust
`Path::components`. -/
def pathComponents (p : List Char) : List (List Char) :=
  (splitSlashAux [] p).filter fun seg => decide (seg ≠ [] ∧ seg ≠ ['.'])

/-- Rust `Path::file_name`: the last normal component, or `none` when the path
is empty, a bare root, or ends in `..`. -/
def file_name (p : List Char) : Option (List Char) :=
  match (pathComponents p).getLast? with
  | none => none
  | some seg => if seg = ['.', '.'] then none else some seg

/-- Rust's split of a file name at its last dot: the stem is the part before
the final `.`, except that a name with no dot, or whose only dot is leading
(a hidden file such as `.bashrc`), is its own stem. -/
def stemOfFileName (n : List Char) : List Char :=
  let rev := n.reverse
  match rev.dropWhile (fun c => decide (c ≠ '.')) with
  | [] => n
  | _ :: before_rev => if before_rev = [] then n else before_rev.reverse

/-- The extension counterpart of `stemOfFileName`: the part after the final
`.`, or `none` when there is no dot or the only dot is leading. -/
def extensionOfFileName (n : List Char) : Option (List Char) :=
  let rev := n.reverse
  match rev.dropWhile (fun c => decide (c ≠ '.')) with
  | [] => none
  | _ :: before_rev =>
    if before_rev = [] then none
    else some ((rev.takeWhile (fun c => decide (c ≠ '.'))).reverse)

/-- Rust `Path::file_stem`. -/
def file_stem (p : List Char) : Option (List Char) :=
  (file_name p).map stemOfFileName

/-- Rust `Path::extension`. -/
def path_extension (p : List Char) : Option (List Char) :=
  (file_name p).bind extensionOfFileName

/-- `bundle_name_from_app_path` (lib.rs 126–131): the file stem of the path.
(The `OsStr::to_str` step never fails in this embedding, where every string is
a list of Unicode characters.) -/
def bundle_name_from_app_path (path : List Char) : Option (List Char) :=
  file_stem path

/-! ### Registry data model -/

/-- `RegisteredApp` (lib.rs 74–79). -/
structure RegisteredApp where
  name : List Char
  path : List Char
deriving DecidableEq, Repr

/-- Rust `str::eq_ignore_ascii_case`: equality after ASCII case folding. -/
def eqIgnoreAsciiCase (a b : List Char) : Bool := lowerStr a == lowerStr b

/-- The loop body of `sort_and_dedupe_apps` (lib.rs 204–213) and the
insert-or-replace step of `add_registered_app` (lib.rs 310–317): replace the
first kept entry whose path matches case-insensitively, else push at the end. -/
def replaceOrPush : List RegisteredApp → RegisteredApp → List RegisteredApp
  | [], app => [app]
  | e :: rest, app =>
    if eqIgnoreAsciiCase e.path app.path then app :: rest
    else e :: replaceOrPush rest app

/-- The dedupe pass of `sort_and_dedupe_apps` (lib.rs 202–213). -/
def dedupeByPath (apps : List RegisteredApp) : List RegisteredApp :=
  apps.foldl replaceOrPush []

/-- Rust `Ord::cmp` on strings: lexicographic by character (equal to byte-wise
UTF-8 comparison, since UTF-8 byte order agrees with code-point order). -/
def cmpStr : List Char → List Char → Ordering
  | [], [] => .eq
  | [], _ :: _ => .lt
  | _ :: _, [] => .gt
  | a :: as, b :: bs =>
    if a < b then .lt else if b < a then .gt else cmpStr as bs

/-- The comparator of `sort_and_dedupe_apps` (lib.rs 215–220): lowercased name,
ties broken by lowercased path. -/
def appCmp (l r : RegisteredApp) : Ordering :=
  (cmpStr (lowerStr l.name) (lowerStr r.name)).then
    (cmpStr (lowerStr l.path) (lowerStr r.path))

/-- The "comes no later than" relation induced by `appCmp`; Rust's stable
`sort_by` sorts so that consecutive elements satisfy it. -/
def appLe (l r : RegisteredApp) : Bool := appCmp l r ≠ .gt

/-- `sort_and_dedupe_apps` (lib.rs 201–223): dedupe by case-insensitive path
(first position kept, last contents win), then stable-sort by the
case-insensitive (name, path) key. Rust's `sort_by` is a stable merge sort,
embedded as `List.mergeSort`. -/
def sort_and_dedupe_apps (apps : List RegisteredApp) : List RegisteredApp :=
  (dedupeByPath apps).mergeSort appLe

/-! ### Disk state and the path normalizer -/

/-- Outcome of `std::fs::canonicalize` on a given path: failure (the source
falls back to the uncanonicalized path), success with a UTF-8 result, or
success with a result that is not valid UTF-8. -/
inductive CanonResult where
  | failed
  | ok (p : List Char)
  | nonUtf8
deriving DecidableEq, Repr

/-- The read-only filesystem facts consulted by the path normalizer:
`Path::exists`, `Path::is_dir`, and `fs::canonicalize`. -/
structure Disk where
  existsAt : List Char → Bool
  isDirAt : List Char → Bool
  canonical : List Char → CanonResult

/-- `is_valid_app_bundle_path` (lib.rs 171–179): the extension equals `app`
case-insensitively, and the path exists and is a directory. -/
def is_valid_app_bundle_path (disk : Disk) (path : List Char) : Bool :=
  (((path_extension path).map fun ext =>
      eqIgnoreAsciiCase ext (("app").toList)).getD false)
    && disk.existsAt path && disk.isDirAt path

/-- `normalize_app_path` (lib.rs 181–199): trim; empty input is an error; the
trimmed path must be a valid app bundle; canonicalize, falling back to the
trimmed path when canonicalization fails, and failing when the canonical path
is not valid UTF-8. -/
def normalize_app_path (disk : Disk) (path : List Char) : Except String (List Char) :=
  let trimmed_path := trimStr path
  if trimmed_path = [] then .error "App path is required."
  else if !(is_valid_app_bundle_path disk trimmed_path) then
    .error ("Invalid app bundle path: " ++ String.mk trimmed_path ++
      ". Expected an existing .app directory.")
  else
    match disk.canonical trimmed_path with
    | .failed => .ok trimmed_path
    | .ok c => .ok c
    | .nonUtf8 => .error "App path must be valid UTF-8."

/-! ### The persisted registry and the command surface

The registry file lives at a fixed path under `$HOME`; its observable states
for this core are: absent, unreadable-or-unparsable, or holding a parsed list
of entries. `fs::write` either replaces the file with the given contents or
fails leaving it as it was; command functions return their `Result` together
with the registry file state after the call. -/

/-- Observable state of the on-disk registry (`apps.json`). `corrupt` covers
both a read error and a JSON parse error of lib.rs 231–235. -/
inductive RegistryFile where
  | absent
  | corrupt
  | stored (apps : List RegisteredApp)
deriving DecidableEq, Repr

/-- `read_registered_apps` (lib.rs 225–238): an absent file is an empty
registry, a read/parse failure is an error, and a parsed list is returned
through `sort_and_dedupe_apps`. -/
def read_registered_apps : RegistryFile → Except String (List RegisteredApp)
  | .absent => .ok []
  | .corrupt => .error "Failed to read or parse app registry."
  | .stored apps => .ok (sort_and_dedupe_apps apps)

/-- `write_registered_apps` (lib.rs 240–252), with directory creation,
serialization and `fs::write` success collapsed into one flag: on success the
file now stores exactly the given list, on failure the file is unchanged. -/
def write_registered_apps (apps : List RegisteredApp) (writeOk : Bool)
    (file : RegistryFile) : Except String Unit × RegistryFile :=
  if writeOk then (.ok (), .stored apps)
  else (.error "Failed to write app registry.", file)

/-- `get_registered_apps` (lib.rs 285–288). -/
def get_registered_apps (file : RegistryFile) : Except String (List RegisteredApp) :=
  read_registered_apps file

/-- `add_registered_app` (lib.rs 290–322): normalize the path, derive the
fallback name from the bundle identity, trim the resolved name and reject a
blank one, load the registry, replace in place the entry with the same
case-insensitive path or push a new one, re-sort, persist, and return the
sorted registry. Returns the command result and the registry file state after
the call. -/
def add_registered_app (disk : Disk) (writeOk : Bool) (file : RegistryFile)
    (path : List Char) (name : Option (List Char)) :
    Except String (List RegisteredApp) × RegistryFile :=
  match normalize_app_path disk path with
  | .error e => (.error e, file)
  | .ok normalized_path =>
    match bundle_name_from_app_path normalized_path with
    | none => (.error "Failed to derive app name from path.", file)
    | some fallback_name =>
      let normalized_name := trimStr (name.getD fallback_name)
      if normalized_name = [] then (.error "App name cannot be empty.", file)
      else
        match read_registered_apps file with
        | .error e => (.error e, file)
        | .ok apps =>
          let new_app : RegisteredApp := ⟨normalized_name, normalized_path⟩
          let sorted_apps := sort_and_dedupe_apps (replaceOrPush apps new_app)
          match write_registered_apps sorted_apps writeOk file with
          | (.error e, file2) => (.error e, file2)
          | (.ok _, file2) => (.ok sorted_apps, file2)

/-- `remove_registered_app` (lib.rs 324–340): reject a blank path, load the
registry, drop every entry whose path matches the trimmed input
case-insensitively, re-sort, persist, and return the sorted registry. -/
def remove_registered_app (writeOk : Bool) (file : RegistryFile)
    (path : List Char) : Except String (List RegisteredApp) × RegistryFile :=
  let trimmed_path := trimStr path
  if trimmed_path = [] then (.error "App path is required.", file)
  else
    match read_registered_apps file with
    | .error e => (.error e, file)
    | .ok apps =>
      let retained_apps := apps.filter fun app => !(eqIgnoreAsciiCase app.path trimmed_path)
      let sorted_apps := sort_and_dedupe_apps retained_apps
      match write_registered_apps sorted_apps writeOk file with
      | (.error e, file2) => (.error e, file2)
      | (.ok _, file2) => (.ok sorted_apps, file2)

/-- `collect_apps_from_directory` (lib.rs 254–283), with the directory listing
passed explicitly: keep the entries that are valid app bundles, canonicalize
each (falling back to the entry path on failure, skipping a non-UTF-8
canonical path), and name each by its bundle identity, skipping entries with
no file stem. -/
def collect_apps_from_directory (disk : Disk) (entries : List (List Char)) :
    List RegisteredApp :=
  entries.filterMap fun candidate_path =>
    if is_valid_app_bundle_path disk candidate_path then
      match
        (match disk.canonical candidate_path with
         | .failed => some candidate_path
         | .ok c => some c
         | .nonUtf8 => none)
      with
      | none => none
      | some path_string =>
        match bundle_name_from_app_path path_string with
        | none => none
        | some bundle_name => some ⟨bundle_name, path_string⟩
    else none

/-- `scan_installed_apps` (lib.rs 342–353): collect from the system and user
`Applications` directories (their listings passed explicitly; a missing or
unreadable directory contributes the empty listing) and dedupe + sort. -/
def scan_installed_apps (disk : Disk)
    (systemEntries userEntries : List (List Char)) : List RegisteredApp :=
  sort_and_dedupe_apps
    (collect_apps_from_directory disk systemEntries ++
      collect_apps_from_directory disk userEntries)

/-- `RunningRegisteredApp` (lib.rs 81–86). -/
structure RunningRegisteredApp where
  path : List Char
  running : Bool
deriving DecidableEq, Repr

/-- `get_running_registered_apps` (lib.rs 376–390), with the process snapshot
passed explicitly (one shared snapshot for the whole batch): each input path
is reported back with its liveness, and a path with no bundle identity is
reported as not running. -/
def get_running_registered_apps (snapshot : List Char) (paths : List (List Char)) :
    List RunningRegisteredApp :=
  paths.map fun path =>
    { path := path
      running :=
        ((bundle_name_from_app_path path).map fun bundle_name =>
            is_app_running_in_commands bundle_name snapshot).getD false }

/-! ### The signal-bus reader -/

/-- The fragment of `serde_json::Value` the signal parser observes; JSON
numbers are carried as rationals (every JSON numeric literal the parser
accepts denotes one, and the reader only passes the value through). -/
inductive Json where
  | null
  | bool (b : Bool)
  | num (q : ℚ)
  | str (s : List Char)
  | arr (elements : List Json)
  | obj (fields : List (List Char × Json))

/-- `serde_json::Value::get` for a string key: field lookup on an object,
`none` on every other value. -/
def Json.get : Json → List Char → Option Json
  | .obj fields, key => (fields.find? fun f => f.1 == key).map (·.2)
  | _, _ => none

/-- `Value::as_f64`: any JSON number yields its numeric value. -/
def Json.as_f64 : Json → Option ℚ
  | .num q => some q
  | _ => none

/-- `Value::as_str`. -/
def Json.as_str : Json → Option (List Char)
  | .str s => some s
  | _ => none

/-- `CciSignal` (lib.rs 53–58), its `f64` value carried as a rational. -/
structure CciSignal where
  value : ℚ
  timestamp : List Char
  label : List Char

/-- `read_last_signal_line` (lib.rs 88–105), with the file contents passed
explicitly (`none` = the file does not exist or cannot be opened): scan the
lines in order, remembering the last line that is non-blank after trimming. -/
def read_last_signal_line (file : Option (List Char)) : Option (List Char) :=
  match file with
  | none => none
  | some contents =>
    (rustLines contents).foldl
      (fun last_line line => if (trimStr line).isEmpty then last_line else some line)
      none

/-- `parse_signal_from_line` (lib.rs 107–119), with `serde_json::from_str`
passed explicitly as `fromStr` (`none` = the line is not well-formed JSON):
require a `value` number, a `timestamp` string and a `label` string, failing
to `none` when any is absent or of the wrong shape. -/
def parse_signal_from_line (fromStr : List Char → Option Json) (line : List Char) :
    Option CciSignal := do
  let parsed ← fromStr line
  let value ← (parsed.get (("value").toList)).bind Json.as_f64
  let timestamp ← (parsed.get (("timestamp").toList)).bind Json.as_str
  let label ← (parsed.get (("label").toList)).bind Json.as_str
  some ⟨value, timestamp, label⟩

/-- `read_signal_file` (lib.rs 121–124). -/
def read_signal_file (fromStr : List Char → Option Json) (file : Option (List Char)) :
    Option CciSignal :=
  (read_last_signal_line file).bind (parse_signal_from_line fromStr)

/-- `CciSignalsResponse` (lib.rs 60–65). -/
structure CciSignalsResponse where
  companion : Option CciSignal
  dugout : Option CciSignal
  hmm : Option CciSignal

/-- `read_cci_signals` (lib.rs 453–470): each of the three signal files is
read independently into its field of the response. -/
def read_cci_signals (fromStr : List Char → Option Json)
    (companionFile dugoutFile hmmFile : Option (List Char)) : CciSignalsResponse :=
  { companion := read_signal_file fromStr companionFile
    dugout := read_signal_file fromStr dugoutFile
    hmm := read_signal_file fromStr hmmFile }

/-! ### Lemmas about the dedupe pass -/

/-- The case-insensitive path identity key of a registry entry. -/
def lkey (a : RegisteredApp) : List Char := lowerStr a.path

theorem eqIgnoreAsciiCase_iff (a b : List Char) :
    eqIgnoreAsciiCase a b = true ↔ lowerStr a = lowerStr b := by
  simp [eqIgnoreAsciiCase]

theorem lkey_replaceOrPush (acc : List RegisteredApp) (app : RegisteredApp) :
    (replaceOrPush acc app).map lkey =
      if lkey app ∈ acc.map lkey then acc.map lkey
      else acc.map lkey ++ [lkey app] := by
  induction acc with
  | nil => simp [replaceOrPush]
  | cons e rest ih =>
    by_cases h : eqIgnoreAsciiCase e.path app.path = true
    · have hk : lkey e = lkey app := (eqIgnoreAsciiCase_iff _ _).mp h
      simp [replaceOrPush, h, lkey] at hk ⊢
      simp [hk]
    · have hk : lkey e ≠ lkey app := by
        intro hx
        exact h ((eqIgnoreAsciiCase_iff _ _).mpr hx)
      have h' : eqIgnoreAsciiCase e.path app.path = false := by
        simpa using h
      by_cases hm : lkey app ∈ rest.map lkey
      · simp [replaceOrPush, h', ih, hm, Ne.symm hk]
      · simp [replaceOrPush, h', ih, hm, Ne.symm hk]

theorem mem_of_mem_replaceOrPush {x : RegisteredApp} :
    ∀ (acc : List RegisteredApp) (app : RegisteredApp),
      x ∈ replaceOrPush acc app → x ∈ acc ∨ x = app
  | [], app, hx => Or.inr (by simpa [replaceOrPush] using hx)
  | e :: rest, app, hx => by
    by_cases h : eqIgnoreAsciiCase e.path app.path = true
    · simp [replaceOrPush, h] at hx
      rcases hx with hx | hx
      · exact Or.inr hx
      · exact Or.inl (List.mem_cons_of_mem _ hx)
    · have h' : eqIgnoreAsciiCase e.path app.path = false := by simpa using h
      simp [replaceOrPush, h'] at hx
      rcases hx with hx | hx
      · exact Or.inl (by simp [hx])
      · rcases mem_of_mem_replaceOrPush rest app hx with hx' | hx'
        · exact Or.inl (List.mem_cons_of_mem _ hx')
        · exact Or.inr hx'

theorem replaceOrPush_of_not_mem :
    ∀ (acc : List RegisteredApp) (app : RegisteredApp),
      lkey app ∉ acc.map lkey → replaceOrPush acc app = acc ++ [app]
  | [], app, _ => by simp [replaceOrPush]
  | e :: rest, app, h => by
    have hk : lkey e ≠ lkey app := by
      intro hx
      exact h (by simp [← hx])
    have h' : eqIgnoreAsciiCase e.path app.path = false := by
      rw [← Bool.not_eq_true]
      intro hx
      exact hk ((eqIgnoreAsciiCase_iff _ _).mp hx)
    have hrest : lkey app ∉ rest.map lkey := fun hx => h (by simp [hx])
    simp [replaceOrPush, h', replaceOrPush_of_not_mem rest app hrest]

theorem foldl_replaceOrPush_nodup (l : List RegisteredApp) :
    ∀ acc : List RegisteredApp, (acc.map lkey).Nodup →
      ((l.foldl replaceOrPush acc).map lkey).Nodup ∧
      ((l.foldl replaceOrPush acc).map lkey).toFinset =
        (acc.map lkey).toFinset ∪ (l.map lkey).toFinset := by
  induction l with
  | nil =>
    intro acc h
    exact ⟨h, by simp⟩
  | cons a t ih =>
    intro acc h
    rw [List.foldl_cons]
    by_cases hmem : lkey a ∈ acc.map lkey
    · have h1 : (replaceOrPush acc a).map lkey = acc.map lkey := by
        rw [lkey_replaceOrPush, if_pos hmem]
      rcases ih (replaceOrPush acc a) (h1 ▸ h) with ⟨hn, hf⟩
      refine ⟨hn, ?_⟩
      rw [hf, h1]
      ext x
      simp only [Finset.mem_union, List.mem_toFinset, List.map_cons, List.mem_cons]
      constructor
      · rintro (hx | hx)
        · exact Or.inl hx
        · exact Or.inr (Or.inr hx)
      · rintro (hx | hx | hx)
        · exact Or.inl hx
        · exact Or.inl (hx ▸ hmem)
        · exact Or.inr hx
    · have h1 : (replaceOrPush acc a).map lkey = acc.map lkey ++ [lkey a] := by
        rw [lkey_replaceOrPush, if_neg hmem]
      have h2 : ((replaceOrPush acc a).map lkey).Nodup := by
        rw [h1]
        simpa [List.nodup_append, h] using hmem
      rcases ih (replaceOrPush acc a) h2 with ⟨hn, hf⟩
      refine ⟨hn, ?_⟩
      rw [hf, h1]
      ext x
      simp only [Finset.mem_union, List.mem_toFinset, List.map_cons, List.mem_cons,
        List.mem_append, List.mem_singleton]
      tauto

theorem dedupeByPath_nodup (l : List RegisteredApp) :
    ((dedupeByPath l).map lkey).Nodup :=
  (foldl_replaceOrPush_nodup l [] (by simp)).1

theorem dedupeByPath_toFinset (l : List RegisteredApp) :
    ((dedupeByPath l).map lkey).toFinset = (l.map lkey).toFinset := by
  have := (foldl_replaceOrPush_nodup l [] (by simp)).2
  simpa [dedupeByPath] using this

theorem dedupeByPath_length (l : List RegisteredApp) :
    (dedupeByPath l).length = (l.map lkey).dedup.length := by
  have h1 : (dedupeByPath l).length = ((dedupeByPath l).map lkey).length := by
    simp
  rw [h1, ← List.toFinset_card_of_nodup (dedupeByPath_nodup l),
    dedupeByPath_toFinset, List.card_toFinset]

theorem mem_of_mem_dedupeByPath {x : RegisteredApp} (l : List RegisteredApp)
    (hx : x ∈ dedupeByPath l) : x ∈ l := by
  suffices h : ∀ (t acc : List RegisteredApp), x ∈ t.foldl replaceOrPush acc →
      x ∈ acc ∨ x ∈ t from
    (h l [] hx).resolve_left (by simp)
  intro t
  induction t with
  | nil => intro acc h; simpa using h
  | cons a t ih =>
    intro acc h
    rw [List.foldl_cons] at h
    rcases ih _ h with h' | h'
    · rcases mem_of_mem_replaceOrPush acc a h' with h'' | h''
      · exact Or.inl h''
      · exact Or.inr (by simp [h''])
    · exact Or.inr (List.mem_cons_of_mem _ h')

/-! ### Lemmas about the comparator and the sort pass -/

theorem cmpStr_eq_iff : ∀ (a b : List Char), cmpStr a b = .eq ↔ a = b
  | [], [] => by simp [cmpStr]
  | [], _ :: _ => by simp [cmpStr]
  | _ :: _, [] => by simp [cmpStr]
  | a :: as, b :: bs => by
    rw [cmpStr]
    by_cases h1 : a < b
    · simp only [if_pos h1]
      constructor
      · intro h; exact absurd h (by decide)
      · intro h
        injection h with h h'
        subst h
        exact absurd h1 (lt_irrefl a)
    · by_cases h2 : b < a
      · simp only [if_neg h1, if_pos h2]
        constructor
        · intro h; exact absurd h (by decide)
        · intro h
          injection h with h h'
          subst h
          exact absurd h2 (lt_irrefl a)
      · have hab : a = b := le_antisymm (not_lt.mp h2) (not_lt.mp h1)
        simp [if_neg h1, if_neg h2, cmpStr_eq_iff as bs, hab]

theorem cmpStr_swap : ∀ (a b : List Char), (cmpStr a b).swap = cmpStr b a
  | [], [] => by simp [cmpStr, Ordering.swap]
  | [], _ :: _ => by simp [cmpStr, Ordering.swap]
  | _ :: _, [] => by simp [cmpStr, Ordering.swap]
  | a :: as, b :: bs => by
    rw [cmpStr, cmpStr]
    by_cases h1 : a < b
    · have h2 : ¬ b < a := lt_asymm h1
      simp [h1, h2, Ordering.swap]
    · by_cases h2 : b < a
      · simp [h1, h2, Ordering.swap]
      · simp [h1, h2, cmpStr_swap as bs]

theorem cmpStr_lt_trans : ∀ {a b c : List Char},
    cmpStr a b = .lt → cmpStr b c = .lt → cmpStr a c = .lt
  | [], [], _, h1, _ => by simp [cmpStr] at h1
  | [], _ :: _, [], _, h2 => by simp [cmpStr] at h2
  | [], _ :: _, _ :: _, _, _ => by simp [cmpStr]
  | _ :: _, [], _, h1, _ => by simp [cmpStr] at h1
  | _ :: _, _ :: _, [], _, h2 => by simp [cmpStr] at h2
  | a :: as, b :: bs, c :: cs, h1, h2 => by
    rw [cmpStr] at h1 h2 ⊢
    by_cases hab : a < b
    · by_cases hbc : b < c
      · simp [lt_trans hab hbc]
      · by_cases hcb : c < b
        · simp [hbc, hcb] at h2
        · have hbceq : b = c := le_antisymm (not_lt.mp hcb) (not_lt.mp hbc)
          have hac : a < c := lt_of_lt_of_le hab (le_of_eq hbceq)
          simp [hac]
    · by_cases hba : b < a
      · simp [hab, hba] at h1
      · have habeq : a = b := le_antisymm (not_lt.mp hba) (not_lt.mp hab)
        by_cases hbc : b < c
        · have hac : a < c := lt_of_le_of_lt (le_of_eq habeq) hbc
          simp [hac]
        · by_cases hcb : c < b
          · simp [hbc, hcb] at h2
          · have hbceq : b = c := le_antisymm (not_lt.mp hcb) (not_lt.mp hbc)
            have haceq : a = c := habeq.trans hbceq
            have hac1 : ¬ a < c := fun h => absurd (lt_of_le_of_lt (le_of_eq haceq.symm) h) (lt_irrefl c)
            have hac2 : ¬ c < a := fun h => absurd (lt_of_lt_of_le h (le_of_eq haceq)) (lt_irrefl c)
            simp [hab, hba] at h1
            simp [hbc, hcb] at h2
            simp [hac1, hac2]
            exact cmpStr_lt_trans h1 h2

theorem appCmp_swap (a b : RegisteredApp) : (appCmp a b).swap = appCmp b a := by
  unfold appCmp
  cases h : cmpStr (lowerStr a.name) (lowerStr b.name) with
  | lt =>
    have h' : cmpStr (lowerStr b.name) (lowerStr a.name) = .gt := by
      rw [← cmpStr_swap, h]; rfl
    simp [h', Ordering.then, Ordering.swap]
  | gt =>
    have h' : cmpStr (lowerStr b.name) (lowerStr a.name) = .lt := by
      rw [← cmpStr_swap, h]; rfl
    simp [h', Ordering.then, Ordering.swap]
  | eq =>
    have h' : cmpStr (lowerStr b.name) (lowerStr a.name) = .eq := by
      rw [← cmpStr_swap, h]; rfl
    simp only [h', Ordering.then]
    exact cmpStr_swap (lowerStr a.path) (lowerStr b.path)

theorem appCmp_eq_iff (a b : RegisteredApp) :
    appCmp a b = .eq ↔
      lowerStr a.name = lowerStr b.name ∧ lowerStr a.path = lowerStr b.path := by
  unfold appCmp
  cases h : cmpStr (lowerStr a.name) (lowerStr b.name) with
  | lt =>
    have hne : lowerStr a.name ≠ lowerStr b.name := by
      intro hx
      rw [← cmpStr_eq_iff] at hx
      rw [h] at hx
      exact absurd hx (by decide)
    simp [Ordering.then, hne]
  | gt =>
    have hne : lowerStr a.name ≠ lowerStr b.name := by
      intro hx
      rw [← cmpStr_eq_iff] at hx
      rw [h] at hx
      exact absurd hx (by decide)
    simp [Ordering.then, hne]
  | eq =>
    have hn : lowerStr a.name = lowerStr b.name := (cmpStr_eq_iff _ _).mp h
    simp [Ordering.then, hn, cmpStr_eq_iff]

theorem appCmp_lt_trans {a b c : RegisteredApp}
    (h1 : appCmp a b = .lt) (h2 : appCmp b c = .lt) : appCmp a c = .lt := by
  unfold appCmp at h1 h2 ⊢
  cases hab : cmpStr (lowerStr a.name) (lowerStr b.name) with
  | gt => rw [hab] at h1; simp [Ordering.then] at h1
  | lt =>
    cases hbc : cmpStr (lowerStr b.name) (lowerStr c.name) with
    | gt => rw [hbc] at h2; simp [Ordering.then] at h2
    | lt =>
      rw [cmpStr_lt_trans hab hbc]
      simp [Ordering.then]
    | eq =>
      have hn : lowerStr b.name = lowerStr c.name := (cmpStr_eq_iff _ _).mp hbc
      rw [← hn, hab]
      simp [Ordering.then]
  | eq =>
    rw [hab] at h1
    simp only [Ordering.then] at h1
    cases hbc : cmpStr (lowerStr b.name) (lowerStr c.name) with
    | gt => rw [hbc] at h2; simp [Ordering.then] at h2
    | lt =>
      have hn : lowerStr a.name = lowerStr b.name := (cmpStr_eq_iff _ _).mp hab
      rw [hn, hbc]
      simp [Ordering.then]
    | eq =>
      rw [hbc] at h2
      simp only [Ordering.then] at h2
      have hn1 : lowerStr a.name = lowerStr b.name := (cmpStr_eq_iff _ _).mp hab
      have hn2 : lowerStr b.name = lowerStr c.name := (cmpStr_eq_iff _ _).mp hbc
      rw [(cmpStr_eq_iff _ _).mpr (hn1.trans hn2)]
      simp only [Ordering.then]
      exact cmpStr_lt_trans h1 h2

theorem appLe_total (a b : RegisteredApp) : appLe a b || appLe b a := by
  by_cases h : appCmp a b = .gt
  · have : appCmp b a = .lt := by
      rw [← appCmp_swap a b, h]; rfl
    simp [appLe, this]
  · simp [appLe, h]

theorem appLe_trans (a b c : RegisteredApp) :
    appLe a b → appLe b c → appLe a c := by
  simp only [appLe, ne_eq, decide_eq_true_eq]
  intro h1 h2
  cases hab : appCmp a b with
  | gt => exact absurd hab h1
  | eq =>
    rcases (appCmp_eq_iff a b).mp hab with ⟨hn, hp⟩
    have hsame : appCmp a c = appCmp b c := by
      unfold appCmp; rw [hn, hp]
    rw [hsame]
    exact h2
  | lt =>
    cases hbc : appCmp b c with
    | gt => exact absurd hbc h2
    | eq =>
      rcases (appCmp_eq_iff b c).mp hbc with ⟨hn, hp⟩
      have hsame : appCmp a c = appCmp a b := by
        unfold appCmp; rw [← hn, ← hp]
      rw [hsame, hab]
      simp
    | lt =>
      rw [appCmp_lt_trans hab hbc]
      simp

theorem cmpStr_lt_iff : ∀ (a b : List Char), cmpStr a b = .lt ↔ a < b
  | [], [] => by
    simp only [cmpStr]
    constructor
    · intro h; exact absurd h (by decide)
    · intro h; exact absurd h nofun
  | [], b :: bs => by
    simp only [cmpStr]
    exact ⟨fun _ => List.Lex.nil, fun _ => trivial⟩
  | _ :: _, [] => by
    simp only [cmpStr]
    constructor
    · intro h; exact absurd h (by decide)
    · intro h; exact absurd h nofun
  | a :: as, b :: bs => by
    rw [cmpStr]
    by_cases h1 : a < b
    · simp only [if_pos h1]
      exact ⟨fun _ => List.Lex.rel h1, fun _ => trivial⟩
    · by_cases h2 : b < a
      · simp only [if_neg h1, if_pos h2]
        constructor
        · intro h; exact absurd h (by decide)
        · intro h
          cases h with
          | cons h' => exact absurd h2 (lt_irrefl a)
          | rel h' => exact absurd h' h1
      · have hab : a = b := le_antisymm (not_lt.mp h2) (not_lt.mp h1)
        subst hab
        simp only [if_neg h1, if_neg h2, cmpStr_lt_iff as bs]
        constructor
        · intro h; exact List.Lex.cons h
        · intro h
          cases h with
          | cons h' => exact h'
          | rel h' => exact absurd h' h1

theorem listChar_lt_irrefl (x : List Char) : ¬ x < x := by
  rw [← cmpStr_lt_iff, (cmpStr_eq_iff x x).mpr rfl]
  decide

theorem appCmp_lt_iff (l r : RegisteredApp) :
    appCmp l r = .lt ↔
      (lowerStr l.name < lowerStr r.name ∨
        (lowerStr l.name = lowerStr r.name ∧ lowerStr l.path < lowerStr r.path)) := by
  unfold appCmp
  cases h : cmpStr (lowerStr l.name) (lowerStr r.name) with
  | lt =>
    have hlt := (cmpStr_lt_iff _ _).mp h
    simp [Ordering.then, hlt]
  | eq =>
    have hn : lowerStr l.name = lowerStr r.name := (cmpStr_eq_iff _ _).mp h
    simp [Ordering.then, hn, cmpStr_lt_iff, listChar_lt_irrefl]
  | gt =>
    have hne : lowerStr l.name ≠ lowerStr r.name := by
      intro hx
      rw [← cmpStr_eq_iff, h] at hx
      exact absurd hx (by decide)
    have hnlt : ¬ lowerStr l.name < lowerStr r.name := by
      intro hx
      rw [← cmpStr_lt_iff, h] at hx
      exact absurd hx (by decide)
    simp [Ordering.then, hne, hnlt]

/-- The ordering stated by the spec: case-insensitive name ascending, ties
broken by case-insensitive path ascending (lexicographic on characters). -/
def specOrder (l r : RegisteredApp) : Prop :=
  lowerStr l.name < lowerStr r.name ∨
    (lowerStr l.name = lowerStr r.name ∧
      (lowerStr l.path < lowerStr r.path ∨ lowerStr l.path = lowerStr r.path))

theorem appLe_iff_specOrder (l r : RegisteredApp) :
    appLe l r = true ↔ specOrder l r := by
  have hlt := appCmp_lt_iff l r
  have heq := appCmp_eq_iff l r
  unfold specOrder
  simp only [appLe, ne_eq, decide_eq_true_eq]
  constructor
  · intro h
    cases hc : appCmp l r with
    | gt => exact absurd hc h
    | lt =>
      rcases hlt.mp hc with h' | ⟨h1, h2⟩
      · exact Or.inl h'
      · exact Or.inr ⟨h1, Or.inl h2⟩
    | eq =>
      rcases heq.mp hc with ⟨h1, h2⟩
      exact Or.inr ⟨h1, Or.inr h2⟩
  · intro h hgt
    rcases h with h' | ⟨h1, h2 | h2⟩
    · rw [hlt.mpr (Or.inl h')] at hgt
      exact absurd hgt (by decide)
    · rw [hlt.mpr (Or.inr ⟨h1, h2⟩)] at hgt
      exact absurd hgt (by decide)
    · rw [heq.mpr ⟨h1, h2⟩] at hgt
      exact absurd hgt (by decide)

/-- The registry invariant of the spec: no two entries share a
case-insensitive path, and the entries are sorted by case-insensitive name,
ties broken by case-insensitive path. -/
def RegistryInvariant (apps : List RegisteredApp) : Prop :=
  (apps.map lkey).Nodup ∧ apps.Pairwise specOrder

theorem sort_and_dedupe_nodup (apps : List RegisteredApp) :
    ((sort_and_dedupe_apps apps).map lkey).Nodup := by
  have hperm : List.Perm (((dedupeByPath apps).mergeSort appLe).map lkey)
      ((dedupeByPath apps).map lkey) :=
    (List.mergeSort_perm (dedupeByPath apps) appLe).map lkey
  exact hperm.nodup_iff.mpr (dedupeByPath_nodup apps)

theorem sort_and_dedupe_sorted (apps : List RegisteredApp) :
    (sort_and_dedupe_apps apps).Pairwise specOrder := by
  have hp := List.sorted_mergeSort appLe_trans appLe_total (dedupeByPath apps)
  exact hp.imp fun h => (appLe_iff_specOrder _ _).mp h

theorem sort_and_dedupe_invariant (apps : List RegisteredApp) :
    RegistryInvariant (sort_and_dedupe_apps apps) :=
  ⟨sort_and_dedupe_nodup apps, sort_and_dedupe_sorted apps⟩

theorem foldl_replaceOrPush_of_nodup :
    ∀ (l acc : List RegisteredApp), ((acc ++ l).map lkey).Nodup →
      l.foldl replaceOrPush acc = acc ++ l
  | [], acc, _ => by simp
  | a :: t, acc, h => by
    have hmem : lkey a ∉ acc.map lkey := by
      rw [List.map_append] at h
      rcases List.nodup_append.mp h with ⟨_, _, hd⟩
      intro hx
      exact hd hx (by simp)
    rw [List.foldl_cons, replaceOrPush_of_not_mem acc a hmem]
    have h' : (((acc ++ [a]) ++ t).map lkey).Nodup := by simpa using h
    rw [foldl_replaceOrPush_of_nodup t (acc ++ [a]) h']
    simp

theorem dedupeByPath_of_nodup (l : List RegisteredApp)
    (h : (l.map lkey).Nodup) : dedupeByPath l = l := by
  have := foldl_replaceOrPush_of_nodup l [] (by simpa using h)
  simpa [dedupeByPath] using this

/-- The dedupe step exactly as the spec words it: look up the position of an
already-kept entry whose path equals the new entry's path case-insensitively;
replace that kept entry wholesale when found, otherwise append the entry. -/
def specDedupeStep (kept : List RegisteredApp) (entry : RegisteredApp) :
    List RegisteredApp :=
  match kept.findIdx? (fun e => decide (lowerStr e.path = lowerStr entry.path)) with
  | some i => kept.set i entry
  | none => kept ++ [entry]

/-- The spec's dedupe pass: scan the entries in their original order. -/
def specDedupe (apps : List RegisteredApp) : List RegisteredApp :=
  apps.foldl specDedupeStep []

theorem replaceOrPush_eq_specDedupeStep :
    ∀ (kept : List RegisteredApp) (entry : RegisteredApp),
      replaceOrPush kept entry = specDedupeStep kept entry
  | [], entry => by simp [replaceOrPush, specDedupeStep]
  | e :: rest, entry => by
    have ih := replaceOrPush_eq_specDedupeStep rest entry
    by_cases h : eqIgnoreAsciiCase e.path entry.path = true
    · have hp : lowerStr e.path = lowerStr entry.path := (eqIgnoreAsciiCase_iff _ _).mp h
      simp [replaceOrPush, specDedupeStep, h, hp]
    · have h' : eqIgnoreAsciiCase e.path entry.path = false := by simpa using h
      have hp : decide (lowerStr e.path = lowerStr entry.path) = false := by
        simp only [decide_eq_false_iff_not]
        intro hx
        exact h ((eqIgnoreAsciiCase_iff _ _).mpr hx)
      simp only [replaceOrPush, h', Bool.false_eq_true, if_false, ih, specDedupeStep,
        List.findIdx?_cons, hp, List.findIdx?_succ]
      cases hfi : rest.findIdx? (fun x => decide (lowerStr x.path = lowerStr entry.path)) with
      | none => simp [hfi]
      | some i => simp [hfi]

/-- C2: `sort_and_dedupe_apps` is exactly the spec's scan (replace the kept
same-path entry in place, else append) followed by the stable sort on the
case-insensitive (name, path) key, and its output length is the number of
distinct case-insensitive paths in the input. -/
theorem C2_sort_and_dedupe_apps_spec (apps : List RegisteredApp) :
    sort_and_dedupe_apps apps = (specDedupe apps).mergeSort appLe ∧
    (sort_and_dedupe_apps apps).length =
      ((apps.map fun a => lowerStr a.path).dedup).length := by
  constructor
  · have hf : replaceOrPush = specDedupeStep :=
      funext fun k => funext fun e => replaceOrPush_eq_specDedupeStep k e
    rw [sort_and_dedupe_apps, dedupeByPath, specDedupe, hf]
  · rw [sort_and_dedupe_apps, List.length_mergeSort, dedupeByPath_length]
    rfl

/-- C7: `sort_and_dedupe_apps` is idempotent. -/
theorem C7_sort_and_dedupe_apps_idempotent (apps : List RegisteredApp) :
    sort_and_dedupe_apps (sort_and_dedupe_apps apps) = sort_and_dedupe_apps apps := by
  show (dedupeByPath (sort_and_dedupe_apps apps)).mergeSort appLe = sort_and_dedupe_apps apps
  rw [dedupeByPath_of_nodup _ (sort_and_dedupe_nodup apps)]
  exact List.mergeSort_of_sorted (List.sorted_mergeSort appLe_trans appLe_total _)

theorem read_registered_apps_invariant (file : RegistryFile)
    (loaded : List RegisteredApp)
    (h : read_registered_apps file = .ok loaded) : RegistryInvariant loaded := by
  cases file with
  | absent =>
    injection h with h'
    exact h' ▸ ⟨by simp, List.Pairwise.nil⟩
  | corrupt => cases h
  | stored l =>
    injection h with h'
    exact h' ▸ sort_and_dedupe_invariant l

theorem add_ok_elim {disk : Disk} {writeOk : Bool} {file : RegistryFile}
    {path : List Char} {name : Option (List Char)} {apps : List RegisteredApp}
    {file2 : RegistryFile}
    (h : add_registered_app disk writeOk file path name = (.ok apps, file2)) :
    ∃ np fb loaded,
      normalize_app_path disk path = .ok np ∧
      bundle_name_from_app_path np = some fb ∧
      trimStr (name.getD fb) ≠ [] ∧
      read_registered_apps file = .ok loaded ∧
      writeOk = true ∧
      apps = sort_and_dedupe_apps (replaceOrPush loaded ⟨trimStr (name.getD fb), np⟩) ∧
      file2 = .stored apps := by
  unfold add_registered_app at h
  split at h
  · injection h with h1 _; cases h1
  · rename_i np hn
    split at h
    · injection h with h1 _; cases h1
    · rename_i fb hb
      dsimp only [] at h
      split at h
      · injection h with h1 _; cases h1
      · rename_i hname
        split at h
        · injection h with h1 _; cases h1
        · rename_i loaded hr
          split at h
          · injection h with h1 _; cases h1
          · rename_i u f2 hwr
            injection h with h1 h2
            injection h1 with h1
            unfold write_registered_apps at hwr
            by_cases hw : writeOk
            · rw [if_pos hw] at hwr
              injection hwr with _ hf2
              exact ⟨np, fb, loaded, hn, hb, hname, hr, hw,
                h1.symm, by rw [← h2, ← hf2, h1]⟩
            · rw [if_neg hw] at hwr
              injection hwr with hbad _
              cases hbad

theorem add_error_file_unchanged {disk : Disk} {writeOk : Bool}
    {file : RegistryFile} {path : List Char} {name : Option (List Char)}
    {e : String} {file2 : RegistryFile}
    (h : add_registered_app disk writeOk file path name = (.error e, file2)) :
    file2 = file := by
  unfold add_registered_app at h
  split at h
  · injection h with _ h2; exact h2.symm
  · rename_i np hn
    split at h
    · injection h with _ h2; exact h2.symm
    · rename_i fb hb
      dsimp only [] at h
      split at h
      · injection h with _ h2; exact h2.symm
      · rename_i hname
        split at h
        · injection h with _ h2; exact h2.symm
        · rename_i loaded hr
          split at h
          · rename_i e' f2 hwr
            injection h with _ h2
            unfold write_registered_apps at hwr
            by_cases hw : writeOk
            · rw [if_pos hw] at hwr
              injection hwr with hbad _
              cases hbad
            · rw [if_neg hw] at hwr
              injection hwr with _ hf2
              rw [← h2, ← hf2]
          · injection h with h1 _
            cases h1

theorem remove_ok_elim {writeOk : Bool} {file : RegistryFile} {path : List Char}
    {apps : List RegisteredApp} {file2 : RegistryFile}
    (h : remove_registered_app writeOk file path = (.ok apps, file2)) :
    ∃ loaded,
      trimStr path ≠ [] ∧
      read_registered_apps file = .ok loaded ∧
      writeOk = true ∧
      apps = sort_and_dedupe_apps
        (loaded.filter fun app => !(eqIgnoreAsciiCase app.path (trimStr path))) ∧
      file2 = .stored apps := by
  unfold remove_registered_app at h
  dsimp only [] at h
  split at h
  · rename_i htp
    injection h with h1 _; cases h1
  · rename_i htp
    split at h
    · injection h with h1 _; cases h1
    · rename_i loaded hr
      split at h
      · injection h with h1 _; cases h1
      · rename_i u f2 hwr
        injection h with h1 h2
        injection h1 with h1
        unfold write_registered_apps at hwr
        by_cases hw : writeOk
        · rw [if_pos hw] at hwr
          injection hwr with _ hf2
          exact ⟨loaded, htp, hr, hw, h1.symm, by rw [← h2, ← hf2, h1]⟩
        · rw [if_neg hw] at hwr
          injection hwr with hbad _
          cases hbad

theorem remove_error_file_unchanged {writeOk : Bool} {file : RegistryFile}
    {path : List Char} {e : String} {file2 : RegistryFile}
    (h : remove_registered_app writeOk file path = (.error e, file2)) :
    file2 = file := by
  unfold remove_registered_app at h
  dsimp only [] at h
  split at h
  · injection h with _ h2; exact h2.symm
  · rename_i htp
    split at h
    · injection h with _ h2; exact h2.symm
    · rename_i loaded hr
      split at h
      · rename_i e' f2 hwr
        injection h with _ h2
        unfold write_registered_apps at hwr
        by_cases hw : writeOk
        · rw [if_pos hw] at hwr
          injection hwr with hbad _
          cases hbad
        · rw [if_neg hw] at hwr
          injection hwr with _ hf2
          rw [← h2, ← hf2]
      · injection h with h1 _
        cases h1

theorem mem_self_replaceOrPush :
    ∀ (acc : List RegisteredApp) (app : RegisteredApp), app ∈ replaceOrPush acc app
  | [], app => by simp [replaceOrPush]
  | e :: rest, app => by
    by_cases h : eqIgnoreAsciiCase e.path app.path = true
    · simp [replaceOrPush, h]
    · have h' : eqIgnoreAsciiCase e.path app.path = false := by simpa using h
      simp only [replaceOrPush, h', Bool.false_eq_true, if_false]
      exact List.mem_cons_of_mem _ (mem_self_replaceOrPush rest app)

theorem replaceOrPush_nodup (acc : List RegisteredApp) (app : RegisteredApp)
    (h : (acc.map lkey).Nodup) : ((replaceOrPush acc app).map lkey).Nodup := by
  rw [lkey_replaceOrPush]
  by_cases hmem : lkey app ∈ acc.map lkey
  · rw [if_pos hmem]; exact h
  · rw [if_neg hmem]
    simpa [List.nodup_append, h] using hmem

theorem countP_eqpath_replaceOrPush :
    ∀ (acc : List RegisteredApp) (app : RegisteredApp),
      (acc.map lkey).Nodup →
      ((replaceOrPush acc app).countP fun a => eqIgnoreAsciiCase a.path app.path) = 1
  | [], app, _ => by
    simp [replaceOrPush, List.countP_cons, eqIgnoreAsciiCase]
  | e :: rest, app, h => by
    have hrest : (rest.map lkey).Nodup := (List.nodup_cons.mp h).2
    by_cases hm : eqIgnoreAsciiCase e.path app.path = true
    · have hkey : lkey e = lkey app := (eqIgnoreAsciiCase_iff _ _).mp hm
      have hzero : (rest.countP fun a => eqIgnoreAsciiCase a.path app.path) = 0 := by
        rw [List.countP_eq_zero]
        intro x hx hpx
        have hkx : lkey x = lkey app := (eqIgnoreAsciiCase_iff _ _).mp hpx
        have : lkey e ∈ rest.map lkey := by
          rw [hkey, ← hkx]
          exact List.mem_map_of_mem lkey hx
        exact (List.nodup_cons.mp h).1 this
      have hself : eqIgnoreAsciiCase app.path app.path = true :=
        (eqIgnoreAsciiCase_iff _ _).mpr rfl
      simp [replaceOrPush, hm, List.countP_cons, hzero, hself]
    · have h' : eqIgnoreAsciiCase e.path app.path = false := by simpa using hm
      simp [replaceOrPush, h', List.countP_cons,
        countP_eqpath_replaceOrPush rest app hrest]

/-- C3: every registry list returned to a caller — by `get_registered_apps`,
`add_registered_app`, `remove_registered_app` and `scan_installed_apps` —
has pairwise-distinct case-insensitive paths and is sorted by case-insensitive
name ascending, ties broken by case-insensitive path ascending. -/
theorem C3_returned_registries_invariant :
    (∀ (file : RegistryFile) (apps : List RegisteredApp),
        get_registered_apps file = .ok apps → RegistryInvariant apps) ∧
    (∀ (disk : Disk) (writeOk : Bool) (file : RegistryFile) (path : List Char)
        (name : Option (List Char)) (apps : List RegisteredApp) (file2 : RegistryFile),
        add_registered_app disk writeOk file path name = (.ok apps, file2) →
        RegistryInvariant apps) ∧
    (∀ (writeOk : Bool) (file : RegistryFile) (path : List Char)
        (apps : List RegisteredApp) (file2 : RegistryFile),
        remove_registered_app writeOk file path = (.ok apps, file2) →
        RegistryInvariant apps) ∧
    (∀ (disk : Disk) (systemEntries userEntries : List (List Char)),
        RegistryInvariant (scan_installed_apps disk systemEntries userEntries)) := by
  refine ⟨?_, ?_, ?_, ?_⟩
  · intro file apps h
    exact read_registered_apps_invariant file apps h
  · intro disk writeOk file path name apps file2 h
    obtain ⟨np, fb, loaded, _, _, _, _, _, happs, _⟩ := add_ok_elim h
    exact happs ▸ sort_and_dedupe_invariant _
  · intro writeOk file path apps file2 h
    obtain ⟨loaded, _, _, _, happs, _⟩ := remove_ok_elim h
    exact happs ▸ sort_and_dedupe_invariant _
  · intro disk systemEntries userEntries
    exact sort_and_dedupe_invariant _

/-- C9: whenever `add_registered_app` or `remove_registered_app` returns an
error — validation or filesystem — the registry file is unchanged. -/
theorem C9_errors_leave_registry_unchanged :
    (∀ (disk : Disk) (writeOk : Bool) (file : RegistryFile) (path : List Char)
        (name : Option (List Char)) (e : String) (file2 : RegistryFile),
        add_registered_app disk writeOk file path name = (.error e, file2) →
        file2 = file) ∧
    (∀ (writeOk : Bool) (file : RegistryFile) (path : List Char) (e : String)
        (file2 : RegistryFile),
        remove_registered_app writeOk file path = (.error e, file2) →
        file2 = file) :=
  ⟨fun _ _ _ _ _ _ _ h => add_error_file_unchanged h,
   fun _ _ _ _ _ h => remove_error_file_unchanged h⟩

/-- C5: `remove_registered_app` rejects a blank path with the `EmptyPath`
error; otherwise, on success, it removes exactly the entries whose path equals
the trimmed (not normalized) input case-insensitively, persists the re-sorted
remainder and returns it, and no returned entry matches the trimmed input. -/
theorem C5_remove_registered_app_contract (writeOk : Bool) (file : RegistryFile)
    (path : List Char) :
    (trimStr path = [] →
      remove_registered_app writeOk file path = (.error "App path is required.", file)) ∧
    (∀ loaded, trimStr path ≠ [] → read_registered_apps file = .ok loaded →
      writeOk = true →
      remove_registered_app writeOk file path =
        (.ok (sort_and_dedupe_apps
            (loaded.filter fun app => !(eqIgnoreAsciiCase app.path (trimStr path)))),
          .stored (sort_and_dedupe_apps
            (loaded.filter fun app => !(eqIgnoreAsciiCase app.path (trimStr path)))))) ∧
    (∀ apps file2, remove_registered_app writeOk file path = (.ok apps, file2) →
      ∀ a ∈ apps, eqIgnoreAsciiCase a.path (trimStr path) = false) := by
  refine ⟨?_, ?_, ?_⟩
  · intro htp
    unfold remove_registered_app
    rw [if_pos htp]
  · intro loaded htp hr hw
    unfold remove_registered_app
    rw [if_neg htp, hr]
    dsimp only []
    unfold write_registered_apps
    rw [if_pos hw]
  · intro apps file2 h a ha
    obtain ⟨loaded, htp, hr, hw, happs, _⟩ := remove_ok_elim h
    subst happs
    have ha' : a ∈ dedupeByPath
        (loaded.filter fun app => !(eqIgnoreAsciiCase app.path (trimStr path))) := by
      rw [sort_and_dedupe_apps] at ha
      exact List.mem_mergeSort.mp ha
    have ha'' := mem_of_mem_dedupeByPath _ ha'
    have := List.of_mem_filter ha''
    simpa using this

/-- C4: `add_registered_app` propagates the normalizer's error; derives the
name from the bundle identity (the path's file stem) when the name is omitted;
rejects a name that is blank after trimming with the `EmptyName` error; on
success replaces in place the entry with the same case-insensitive normalized
path rather than adding a duplicate (exactly one returned entry carries that
path), and returns the full re-sorted registry after persisting it. -/
theorem C4_add_registered_app_contract (disk : Disk) (writeOk : Bool)
    (file : RegistryFile) (path : List Char) (name : Option (List Char)) :
    (∀ e, normalize_app_path disk path = .error e →
      add_registered_app disk writeOk file path name = (.error e, file)) ∧
    (∀ np fb, normalize_app_path disk path = .ok np →
      bundle_name_from_app_path np = some fb →
      trimStr (name.getD fb) = [] →
      add_registered_app disk writeOk file path name =
        (.error "App name cannot be empty.", file)) ∧
    (∀ np fb loaded, normalize_app_path disk path = .ok np →
      bundle_name_from_app_path np = some fb →
      trimStr (name.getD fb) ≠ [] →
      read_registered_apps file = .ok loaded →
      writeOk = true →
      add_registered_app disk writeOk file path name =
        (.ok (sort_and_dedupe_apps (replaceOrPush loaded ⟨trimStr (name.getD fb), np⟩)),
          .stored (sort_and_dedupe_apps
            (replaceOrPush loaded ⟨trimStr (name.getD fb), np⟩)))) ∧
    (∀ apps file2,
      add_registered_app disk writeOk file path name = (.ok apps, file2) →
      ∃ np, normalize_app_path disk path = .ok np ∧
        (apps.countP fun a => eqIgnoreAsciiCase a.path np) = 1 ∧
        file2 = .stored apps) := by
  refine ⟨?_, ?_, ?_, ?_⟩
  · intro e he
    unfold add_registered_app
    rw [he]
  · intro np fb hn hb hname
    unfold add_registered_app
    rw [hn]
    dsimp only []
    rw [hb]
    dsimp only []
    rw [if_pos hname]
  · intro np fb loaded hn hb hname hr hw
    unfold add_registered_app
    rw [hn]
    dsimp only []
    rw [hb]
    dsimp only []
    rw [if_neg hname, hr]
    dsimp only []
    unfold write_registered_apps
    rw [if_pos hw]
  · intro apps file2 h
    obtain ⟨np, fb, loaded, hn, hb, hname, hr, hw, happs, hfile2⟩ := add_ok_elim h
    refine ⟨np, hn, ?_, hfile2⟩
    subst happs
    have hload := (read_registered_apps_invariant file loaded hr).1
    have hX : ((replaceOrPush loaded ⟨trimStr (name.getD fb), np⟩).map lkey).Nodup :=
      replaceOrPush_nodup _ _ hload
    rw [sort_and_dedupe_apps, dedupeByPath_of_nodup _ hX]
    rw [List.Perm.countP_eq _ (List.mergeSort_perm _ _)]
    exact countP_eqpath_replaceOrPush loaded ⟨trimStr (name.getD fb), np⟩ hload

theorem is_valid_app_bundle_path_nil (disk : Disk) :
    is_valid_app_bundle_path disk [] = false := rfl

/-- C6: the path normalizer trims, rejects an empty trimmed input with
`InvalidPath`, rejects anything that is not an existing `.app` directory with
`InvalidBundle`, and otherwise returns the canonicalized path, failing with
`NonUtf8Path` when the canonical path is not valid UTF-8. -/
theorem C6_normalize_app_path_contract (disk : Disk) (path : List Char) :
    (trimStr path = [] →
      normalize_app_path disk path = .error "App path is required.") ∧
    (trimStr path ≠ [] → is_valid_app_bundle_path disk (trimStr path) = false →
      normalize_app_path disk path =
        .error ("Invalid app bundle path: " ++ String.mk (trimStr path) ++
          ". Expected an existing .app directory.")) ∧
    (is_valid_app_bundle_path disk (trimStr path) = true →
      (∀ c, disk.canonical (trimStr path) = .ok c →
        normalize_app_path disk path = .ok c) ∧
      (disk.canonical (trimStr path) = .nonUtf8 →
        normalize_app_path disk path = .error "App path must be valid UTF-8.")) := by
  refine ⟨?_, ?_, ?_⟩
  · intro htp
    unfold normalize_app_path
    rw [if_pos htp]
  · intro htp hv
    unfold normalize_app_path
    dsimp only []
    rw [if_neg htp, hv]
    simp
  · intro hv
    have htp : trimStr path ≠ [] := by
      intro h0
      rw [h0, is_valid_app_bundle_path_nil] at hv
      cases hv
    constructor
    · intro c hc
      unfold normalize_app_path
      dsimp only []
      rw [if_neg htp, hv]
      simp only [Bool.not_true, Bool.false_eq_true, if_false]
      rw [hc]
    · intro hc
      unfold normalize_app_path
      dsimp only []
      rw [if_neg htp, hv]
      simp only [Bool.not_true, Bool.false_eq_true, if_false]
      rw [hc]

theorem foldl_last_nonblank :
    ∀ (lines : List (List Char)) (init : Option (List Char)),
      lines.foldl
        (fun last_line line => if (trimStr line).isEmpty then last_line else some line)
        init =
      ((lines.filter fun l => !(trimStr l).isEmpty).getLast?).or init
  | [], init => by simp
  | l :: ls, init => by
    rw [List.foldl_cons, foldl_last_nonblank ls, List.filter_cons]
    by_cases hb : (trimStr l).isEmpty = true
    · rw [if_pos hb, if_neg (by simp [hb])]
    · rw [if_neg hb, if_pos (by simp [hb])]
      cases hfl : ls.filter (fun l => !(trimStr l).isEmpty) with
      | nil => simp
      | cons x xs =>
        rw [List.getLast?_cons_cons,
          List.getLast?_eq_getLast (x :: xs) (by simp)]
        simp [Option.or]

/-- C8: for each signal file the reader keeps the last non-blank line of the
file (a later non-blank line always overwrites an earlier one, blank lines are
skipped); an absent file, a failed JSON parse, or a missing or mistyped
`value`/`timestamp`/`label` field yields no signal rather than an error; and
each file's signal never depends on the other files' contents. -/
theorem C8_signal_reader_contract (fromStr : List Char → Option Json) :
    (read_signal_file fromStr none = none) ∧
    (∀ contents, read_last_signal_line (some contents) =
      ((rustLines contents).filter fun l => !(trimStr l).isEmpty).getLast?) ∧
    (∀ line, fromStr line = none → parse_signal_from_line fromStr line = none) ∧
    (∀ line j, fromStr line = some j →
      (j.get (("value").toList)).bind Json.as_f64 = none →
      parse_signal_from_line fromStr line = none) ∧
    (∀ line j, fromStr line = some j →
      (j.get (("timestamp").toList)).bind Json.as_str = none →
      parse_signal_from_line fromStr line = none) ∧
    (∀ line j, fromStr line = some j →
      (j.get (("label").toList)).bind Json.as_str = none →
      parse_signal_from_line fromStr line = none) ∧
    (∀ companionFile dugoutFile hmmFile companionFile2 hmmFile2,
      (read_cci_signals fromStr companionFile dugoutFile hmmFile).dugout =
        (read_cci_signals fromStr companionFile2 dugoutFile hmmFile2).dugout) := by
  refine ⟨rfl, ?_, ?_, ?_, ?_, ?_, fun _ _ _ _ _ => rfl⟩
  · intro contents
    unfold read_last_signal_line
    dsimp only []
    rw [foldl_last_nonblank]
    exact Option.or_none
  · intro line hj
    simp [parse_signal_from_line, hj]
  · intro line j hj hv
    unfold parse_signal_from_line
    simp only [Option.bind_eq_bind]
    rw [hj, Option.some_bind', hv, Option.none_bind']
  · intro line j hj ht
    unfold parse_signal_from_line
    simp only [Option.bind_eq_bind]
    rw [hj, Option.some_bind']
    cases hvv : (j.get (("value").toList)).bind Json.as_f64 with
    | none => rw [Option.none_bind']
    | some v => rw [Option.some_bind', ht, Option.none_bind']
  · intro line j hj hl
    unfold parse_signal_from_line
    simp only [Option.bind_eq_bind]
    rw [hj, Option.some_bind']
    cases hvv : (j.get (("value").toList)).bind Json.as_f64 with
    | none => rw [Option.none_bind']
    | some v =>
      rw [Option.some_bind']
      cases htt : (j.get (("timestamp").toList)).bind Json.as_str with
      | none => rw [Option.none_bind']
      | some t => rw [Option.some_bind', hl, Option.none_bind']

/-- C10: `get_running_registered_apps` returns one output per input path, in
the same order, echoing each input path unmodified in the `path` field; and a
path from which no bundle identity can be derived (for example the empty
string) is reported with `running = false` rather than as an error. -/
theorem C10_get_running_registered_apps_shape (snapshot : List Char)
    (paths : List (List Char)) :
    (get_running_registered_apps snapshot paths).length = paths.length ∧
    (∀ i : Nat, ((get_running_registered_apps snapshot paths)[i]?).map
        (fun r => r.path) = paths[i]?) ∧
    (∀ (i : Nat) (p : List Char), paths[i]? = some p →
      bundle_name_from_app_path p = none →
      ((get_running_registered_apps snapshot paths)[i]?).map (fun r => r.running) =
        some false) := by
  refine ⟨by simp [get_running_registered_apps], ?_, ?_⟩
  · intro i
    simp only [get_running_registered_apps, List.getElem?_map]
    cases paths[i]? <;> simp
  · intro i p hp hb
    simp [get_running_registered_apps, List.getElem?_map, hp, hb]

/-! ### Concrete scenarios exercising the contracts -/

/-- A disk on which every path is an existing directory and canonicalization
is the identity. -/
def demoDisk : Disk :=
  { existsAt := fun _ => true
    isDirAt := fun _ => true
    canonical := fun p => .ok p }

/-- A disk whose canonicalization always yields non-UTF-8 bytes. -/
def demoDiskNonUtf8 : Disk :=
  { existsAt := fun _ => true
    isDirAt := fun _ => true
    canonical := fun _ => .nonUtf8 }

/-- A disk on which no path exists. -/
def demoDiskEmpty : Disk :=
  { existsAt := fun _ => false
    isDirAt := fun _ => false
    canonical := fun _ => .failed }

/-- The demo registry entry `a` at `/a.app`. -/
def demoApp : RegisteredApp := ⟨("a").toList, ("/a.app").toList⟩

theorem sort_and_dedupe_singleton (x : RegisteredApp) :
    sort_and_dedupe_apps [x] = [x] := by
  simp [sort_and_dedupe_apps, dedupeByPath, replaceOrPush]

theorem sort_and_dedupe_nil : sort_and_dedupe_apps [] = [] := by
  simp [sort_and_dedupe_apps, dedupeByPath]

theorem add_demo_eval :
    add_registered_app demoDisk true .absent (("/a.app").toList) none =
      (.ok [demoApp], .stored [demoApp]) := by
  unfold add_registered_app
  rw [show normalize_app_path demoDisk (("/a.app").toList) = .ok (("/a.app").toList) from rfl]
  dsimp only []
  rw [show bundle_name_from_app_path (("/a.app").toList) = some (("a").toList) from rfl]
  dsimp only []
  rw [if_neg (by decide : ¬ trimStr ((none : Option (List Char)).getD (("a").toList)) = [])]
  rw [show read_registered_apps .absent = .ok [] from rfl]
  dsimp only []
  unfold write_registered_apps
  rw [if_pos rfl]
  rw [show trimStr ((none : Option (List Char)).getD (("a").toList)) = ("a").toList from by
    decide]
  rw [show replaceOrPush [] (⟨("a").toList, ("/a.app").toList⟩ : RegisteredApp) = [demoApp]
    from rfl]
  rw [sort_and_dedupe_singleton]

theorem remove_demo_eval :
    remove_registered_app true .absent (("/x.app").toList) = (.ok [], .stored []) := by
  unfold remove_registered_app
  rw [if_neg (by decide : ¬ trimStr (("/x.app").toList) = [])]
  rw [show read_registered_apps .absent = .ok [] from rfl]
  dsimp only []
  unfold write_registered_apps
  rw [if_pos rfl]
  rw [show List.filter
      (fun app => !(eqIgnoreAsciiCase app.path (trimStr (("/x.app").toList))))
      ([] : List RegisteredApp) = [] from rfl]
  rw [sort_and_dedupe_nil]

/-- Witness for C3: the invariant facts obtained from each command at
concrete inputs. -/
theorem C3_returned_registries_invariant_witness :
    RegistryInvariant [demoApp] ∧ RegistryInvariant [demoApp] ∧
      RegistryInvariant [] ∧
      RegistryInvariant (scan_installed_apps demoDisk [] []) := by
  refine ⟨?_, ?_, ?_, ?_⟩
  · exact C3_returned_registries_invariant.1 (.stored [demoApp]) [demoApp]
      (by unfold get_registered_apps read_registered_apps
          dsimp only []
          rw [sort_and_dedupe_singleton])
  · exact C3_returned_registries_invariant.2.1 demoDisk true .absent
      (("/a.app").toList) none [demoApp] (.stored [demoApp]) add_demo_eval
  · exact C3_returned_registries_invariant.2.2.1 true .absent
      (("/x.app").toList) [] (.stored []) remove_demo_eval
  · exact C3_returned_registries_invariant.2.2.2 demoDisk [] []

/-- Witness for C4 at concrete inputs: empty path, blank provided name,
successful add with derived name, and uniqueness of the added path. -/
theorem C4_add_registered_app_contract_witness :
    add_registered_app demoDisk true .absent [] none =
      (.error "App path is required.", .absent) ∧
    add_registered_app demoDisk true .absent (("/a.app").toList) (some ((" ").toList)) =
      (.error "App name cannot be empty.", .absent) ∧
    add_registered_app demoDisk true .absent (("/a.app").toList) none =
      (.ok (sort_and_dedupe_apps
          (replaceOrPush [] ⟨trimStr ((none : Option (List Char)).getD (("a").toList)),
            ("/a.app").toList⟩)),
        .stored (sort_and_dedupe_apps
          (replaceOrPush [] ⟨trimStr ((none : Option (List Char)).getD (("a").toList)),
            ("/a.app").toList⟩))) ∧
    (∃ np, normalize_app_path demoDisk (("/a.app").toList) = .ok np ∧
      ([demoApp].countP fun a => eqIgnoreAsciiCase a.path np) = 1 ∧
      (RegistryFile.stored [demoApp] : RegistryFile) = .stored [demoApp]) := by
  refine ⟨?_, ?_, ?_, ?_⟩
  · exact (C4_add_registered_app_contract demoDisk true .absent [] none).1
      "App path is required." rfl
  · exact (C4_add_registered_app_contract demoDisk true .absent (("/a.app").toList)
      (some ((" ").toList))).2.1 (("/a.app").toList) (("a").toList) rfl (by decide)
      (by decide)
  · exact (C4_add_registered_app_contract demoDisk true .absent (("/a.app").toList)
      none).2.2.1 (("/a.app").toList) (("a").toList) [] rfl (by decide) (by decide)
      rfl rfl
  · exact (C4_add_registered_app_contract demoDisk true .absent (("/a.app").toList)
      none).2.2.2 [demoApp] (.stored [demoApp]) add_demo_eval

/-- Witness for C5 at concrete inputs: blank path, successful removal, and
the no-matching-entry property of the result. -/
theorem C5_remove_registered_app_contract_witness :
    remove_registered_app true .absent ((" ").toList) =
      (.error "App path is required.", .absent) ∧
    remove_registered_app true .absent (("/x.app").toList) =
      (.ok (sort_and_dedupe_apps
          (([] : List RegisteredApp).filter fun app =>
            !(eqIgnoreAsciiCase app.path (trimStr (("/x.app").toList))))),
        .stored (sort_and_dedupe_apps
          (([] : List RegisteredApp).filter fun app =>
            !(eqIgnoreAsciiCase app.path (trimStr (("/x.app").toList)))))) ∧
    (∀ a ∈ ([] : List RegisteredApp),
      eqIgnoreAsciiCase a.path (trimStr (("/x.app").toList)) = false) := by
  refine ⟨?_, ?_, ?_⟩
  · exact (C5_remove_registered_app_contract true .absent ((" ").toList)).1 (by decide)
  · exact (C5_remove_registered_app_contract true .absent (("/x.app").toList)).2.1 []
      (by decide) rfl rfl
  · exact (C5_remove_registered_app_contract true .absent (("/x.app").toList)).2.2 []
      (.stored []) remove_demo_eval

/-- Witness for C6 at concrete inputs: blank input, missing bundle, canonical
success, and non-UTF-8 canonicalization. -/
theorem C6_normalize_app_path_contract_witness :
    normalize_app_path demoDisk ((" ").toList) = .error "App path is required." ∧
    normalize_app_path demoDiskEmpty (("/a.app").toList) =
      .error ("Invalid app bundle path: " ++ String.mk (trimStr (("/a.app").toList)) ++
        ". Expected an existing .app directory.") ∧
    normalize_app_path demoDisk (("/a.app").toList) = .ok (("/a.app").toList) ∧
    normalize_app_path demoDiskNonUtf8 (("/a.app").toList) =
      .error "App path must be valid UTF-8." := by
  refine ⟨?_, ?_, ?_, ?_⟩
  · exact (C6_normalize_app_path_contract demoDisk ((" ").toList)).1 (by decide)
  · exact (C6_normalize_app_path_contract demoDiskEmpty (("/a.app").toList)).2.1
      (by decide) (by decide)
  · exact ((C6_normalize_app_path_contract demoDisk (("/a.app").toList)).2.2
      (by decide)).1 (("/a.app").toList) (by decide)
  · exact ((C6_normalize_app_path_contract demoDiskNonUtf8 (("/a.app").toList)).2.2
      (by decide)).2 (by decide)

/-- Witness for C9: concrete failing add and remove calls leave the registry
file untouched. -/
theorem C9_errors_leave_registry_unchanged_witness :
    (RegistryFile.absent : RegistryFile) = .absent ∧
    (RegistryFile.stored [demoApp] : RegistryFile) = .stored [demoApp] := by
  constructor
  · exact C9_errors_leave_registry_unchanged.1 demoDisk true .absent [] none
      "App path is required." .absent rfl
  · exact C9_errors_leave_registry_unchanged.2 true (.stored [demoApp])
      ((" ").toList) "App path is required." (.stored [demoApp]) rfl

/-- A demo signal record: `value 2`, timestamp `t`, label `l`. -/
def demoJsonSignal : Json :=
  .obj [((("value").toList), .num 2), ((("timestamp").toList), .str (("t").toList)),
        ((("label").toList), .str (("l").toList))]

/-- A demo JSON parser: the line `b` parses to the demo record, the line `n`
parses to JSON `null`, and every other line fails to parse. -/
def demoFromStr : List Char → Option Json :=
  fun line =>
    if line = ("b").toList then some demoJsonSignal
    else if line = ("n").toList then some .null
    else none

/-- Witness for C8 at concrete inputs, including the spec's scenario: with
lines `a`, a blank line, then `b`, the reader reports the record parsed from
the later line `b`. -/
theorem C8_signal_reader_contract_witness :
    read_last_signal_line (some (("a\n \nb\n").toList)) =
      (((rustLines (("a\n \nb\n").toList)).filter fun l =>
        !(trimStr l).isEmpty).getLast?) ∧
    parse_signal_from_line demoFromStr (("x").toList) = none ∧
    parse_signal_from_line demoFromStr (("n").toList) = none ∧
    read_signal_file demoFromStr (some (("a\n \nb\n").toList)) =
      some ⟨2, ("t").toList, ("l").toList⟩ := by
  refine ⟨?_, ?_, ?_, ?_⟩
  · exact (C8_signal_reader_contract demoFromStr).2.1 (("a\n \nb\n").toList)
  · exact (C8_signal_reader_contract demoFromStr).2.2.1 (("x").toList) rfl
  · exact (C8_signal_reader_contract demoFromStr).2.2.2.1 (("n").toList) .null rfl rfl
  · rw [read_signal_file, (C8_signal_reader_contract demoFromStr).2.1]
    rw [show (((rustLines (("a\n \nb\n").toList)).filter fun l =>
        !(trimStr l).isEmpty).getLast?) = some (("b").toList) from by decide]
    rfl

/-- Witness for C10 at the empty-string path with an empty snapshot. -/
theorem C10_get_running_registered_apps_shape_witness :
    (get_running_registered_apps [] [[]]).length = ([[]] : List (List Char)).length ∧
    ((get_running_registered_apps [] [[]])[0]?).map (fun r => r.path) =
      ([[]] : List (List Char))[0]? ∧
    ((get_running_registered_apps [] [[]])[0]?).map (fun r => r.running) =
      some false :=
  ⟨(C10_get_running_registered_apps_shape [] [[]]).1,
    (C10_get_running_registered_apps_shape [] [[]]).2.1 0,
    (C10_get_running_registered_apps_shape [] [[]]).2.2 0 [] rfl rfl⟩

end Launcher
